import Mathlib

/-!
Verification of the finity repository (src/dfa.py and src/finity.py) against its
specification.  The Python code is shallowly embedded: Python dicts become ordered
association lists (CPython 3.7+ preserves insertion order), Python exceptions become
`Except String`, and unbounded loops/recursion become fuel-indexed recursion where the
fuel supplied is a provable upper bound on the number of iterations (so exhaustion is
unreachable on the paths the Python code can take).  Mutable in-place rewriting is
modelled by explicit state threading, tracking the source's iteration order wherever
an earlier mutation is observable by a later read.  Python's shared mutable default
argument (`Transition.__init__`'s `output = []`) is not modelled; every automaton
evaluated below passes explicit, distinct output lists, for which value semantics
coincide with the source's object semantics.
-/

deriving instance DecidableEq for Except

namespace Finity

/-- Model of `IOSymbol` from src/dfa.py: a symbol of kind `char` (carrying a value) or `eof`.
Equality is structural on (kind, value), as in `IOSymbol.__eq__`. -/
inductive IOSym where
  | char (value : String)
  | eof
  deriving DecidableEq, Repr, Inhabited

/-- Model of `Transition` from src/dfa.py: a destination state name plus an output list. -/
structure Transition where
  state_to : String
  output : List IOSym
  deriving DecidableEq, Repr, Inhabited

/-- The value of a `State`'s `transitions` field in src/dfa.py.  `unset` models the
case where `State.__init__` was given `transitions = None`: none of its `isinstance`
branches match, so the attribute is never assigned and any later access raises
`AttributeError`.  `pynone` models the attribute explicitly holding `None` (the case
`step`, `decide` and `distinguish` test for with `is None`), which `State.__init__`
never produces. -/
inductive TransAttr where
  | unset
  | pynone
  | eps (t : Transition)
  | row (r : List (IOSym × Transition))
  deriving DecidableEq, Repr, Inhabited

/-- Model of `State` from src/dfa.py: a name and the `transitions` attribute. -/
structure StateD where
  name : String
  transitions : TransAttr
  deriving DecidableEq, Repr, Inhabited

/-- The `transitions` argument accepted by `State.__init__`. -/
inductive InitArg where
  | pynone
  | str (s : String)
  | dict (d : List (IOSym × Transition))
  | trans (t : Transition)
  | row (r : List (IOSym × Transition))
  deriving DecidableEq, Repr

/-- Model of `State.__init__` from src/dfa.py: a string becomes an unconditional `Transition`
(with the default empty output), a dict becomes a `TransitionsRow`, a `Transition` or
`TransitionsRow` is stored as is.  There is no `else` branch, so passing `None`
leaves the `transitions` attribute unset. -/
def StateInit (name : String) (transitions : InitArg) : StateD :=
  match transitions with
  | .str s => ⟨name, .eps ⟨s, []⟩⟩
  | .dict d => ⟨name, .row d⟩
  | .trans t => ⟨name, .eps t⟩
  | .row r => ⟨name, .row r⟩
  | .pynone => ⟨name, .unset⟩

/-- Ordered association list lookup (Python dict `d[k]` read, as an `Option`). -/
def alLookup {α β : Type} [DecidableEq α] (l : List (α × β)) (k : α) : Option β :=
  (l.find? fun p => p.1 = k).map Prod.snd

/-- Association list read with a default. -/
def alGet {α β : Type} [DecidableEq α] (l : List (α × β)) (k : α) (d : β) : β :=
  (alLookup l k).getD d

/-- Python dict write `d[k] = v`: update in place if the key is present (keeping its
position), otherwise append. -/
def alUpdate {α β : Type} [DecidableEq α] : List (α × β) → α → β → List (α × β)
  | [], k, v => [(k, v)]
  | (k', v') :: rest, k, v =>
    if k' = k then (k, v) :: rest else (k', v') :: alUpdate rest k v

/-- The state dictionary of a `DFA`: insertion-ordered, keyed by state name (the key
of `self.states` always equals the stored state's own name). -/
def lookupSt (sts : List StateD) (n : String) : Option StateD :=
  sts.find? fun st => st.name = n

/-- The `DFA` object from src/dfa.py: the ordered state dict, the start name, and
the `epsilons_minimised` flag. -/
structure DFAm where
  states : List StateD
  start : String
  epsilons_minimised : Bool
  deriving DecidableEq, Repr, Inhabited

/-- Monadic map over a list in `Except`, evaluating left to right and propagating
the first error, as a Python `for` loop of calls does. -/
def mapExcept {α β : Type} (f : α → Except String β) : List α → Except String (List β)
  | [] => .ok []
  | x :: xs => do
    let y ← f x
    let ys ← mapExcept f xs
    .ok (y :: ys)

/-! ## DFA.step and DFA.run -/

/-- Dict lookup in a `TransitionsRow` (`symbol in row.inputs` / `row.inputs[symbol]`). -/
def rowLookup (r : List (IOSym × Transition)) (sym : IOSym) : Option Transition :=
  alLookup r sym

/-- Resolution of a computed `next_state_name` at the end of `DFA.step`: `None` stays
`None`, a missing name raises, otherwise the named `State` is returned. -/
def resolveNext (M : DFAm) (n : Option String) (out : List IOSym) (buf : List IOSym) :
    Except String (Option StateD × List IOSym × List IOSym) :=
  match n with
  | none => .ok (none, out, buf)
  | some nm =>
    match lookupSt M.states nm with
    | none => .error "transition to nonexistant state"
    | some st => .ok (some st, out, buf)

/-- Model of `DFA.step` from src/dfa.py.  A `None` descriptor yields no next state and no
output; an unconditional `Transition` yields its destination and output without
consuming input; a `TransitionsRow` pops one symbol (substituting `eof` when the
buffer is empty) and either follows the matching entry or halts in place.  Reading
the `transitions` attribute of a state built with `transitions = None` raises
`AttributeError`. -/
def stepF (M : DFAm) (st : StateD) (buf : List IOSym) :
    Except String (Option StateD × List IOSym × List IOSym) :=
  match st.transitions with
  | .unset => .error "AttributeError"
  | .pynone => resolveNext M none [] buf
  | .eps t => resolveNext M (some t.state_to) t.output buf
  | .row r =>
    let (sym, buf') := match buf with
      | [] => (IOSym.eof, ([] : List IOSym))
      | x :: xs => (x, xs)
    match rowLookup r sym with
    | some t => resolveNext M (some t.state_to) t.output buf'
    | none => resolveNext M none [] buf'

/-- Result of a (fuelled) `DFA.run`: ran out of fuel, raised, or halted having
emitted the given concatenated output. -/
inductive RunRes where
  | fuelOut
  | errRun (msg : String)
  | halted (out : List IOSym)
  deriving DecidableEq, Repr, Inhabited

/-- The stepping loop of `DFA.run`, accumulating the emitted output. -/
def runLoop (M : DFAm) : Nat → StateD → List IOSym → List IOSym → RunRes
  | 0, _, _, _ => .fuelOut
  | fuel + 1, st, buf, acc =>
    match stepF M st buf with
    | .error e => .errRun e
    | .ok (none, out, _) => .halted (acc ++ out)
    | .ok (some st', out, buf') => runLoop M fuel st' buf' (acc ++ out)

/-- Model of `DFA.run` from src/dfa.py: look up the start state (a missing name raises
`KeyError`) and step until no next state is returned, collecting output. -/
def runF (M : DFAm) (start : String) (buf : List IOSym) (fuel : Nat) : RunRes :=
  match lookupSt M.states start with
  | none => .errRun "KeyError"
  | some st => runLoop M fuel st buf []

/-! ## DFA.minimise_epsilons

The outer `while True` scans `self.states.values()` for the first state whose
descriptor is an unconditional `Transition` (there is no check that the transition is
not a self loop).  It then walks every state in dict order, redirecting every pointer
at the found state `S` to `S`'s own destination and extending the pointing edge's
output with `S`'s output.  When the walk reaches `S` itself and `S` is a self loop,
`S`'s own output list is extended by itself (doubling it), and states walked after
`S` then append the doubled list; the fold below threads `S`'s current transition to
reproduce this order dependence.  Finally `S` is popped and the scan restarts, unless
`S`'s name is the empty string, in which case `if removed:` is falsy and the loop
exits without popping. -/

/-- The scan `for state in self.states.values(): if isinstance(state.transitions,
Transition): ... break`: the first state with an unconditional transition. -/
def findFirstEps : List StateD → Option (String × Transition)
  | [] => none
  | st :: rest =>
    match st.transitions with
    | .eps t => some (st.name, t)
    | _ => findFirstEps rest

/-- One state's rewrite during the elimination of the state named `sname`, given
`cur`, the current value of the eliminated state's transition; returns the rewritten
state and the (possibly mutated) `cur`. -/
def rewriteStep (sname : String) (cur : Transition) (st : StateD) :
    StateD × Transition :=
  match st.transitions with
  | .eps t =>
    if t.state_to = sname then
      let t' : Transition := ⟨cur.state_to, t.output ++ cur.output⟩
      (⟨st.name, .eps t'⟩, if st.name = sname then t' else cur)
    else (st, cur)
  | .row r =>
    (⟨st.name, .row (r.map fun p =>
        if p.2.state_to = sname then
          (p.1, Transition.mk cur.state_to (p.2.output ++ cur.output))
        else p)⟩,
     cur)
  | _ => (st, cur)

/-- The inner `for other_state in self.states.values()` walk, in dict order. -/
def rewritePass (sname : String) (cur : Transition) :
    List StateD → List StateD × Transition
  | [] => ([], cur)
  | st :: rest =>
    let p := rewriteStep sname cur st
    let q := rewritePass sname p.2 rest
    (p.1 :: q.1, q.2)

/-- Model of `self.states.pop(removed)`: drop the state with the given (unique) name. -/
def removeName (n : String) (sts : List StateD) : List StateD :=
  sts.filter fun st => st.name ≠ n

/-- The `while True` loop of `minimise_epsilons`, fuelled.  Each pass that pops a
state strictly shrinks the state list, so `sts.length + 1` fuel always reaches the
source loop's own exit. -/
def minEpsLoop : Nat → List StateD → List StateD
  | 0, sts => sts
  | fuel + 1, sts =>
    match findFirstEps sts with
    | none => sts
    | some (sname, strans) =>
      let sts' := (rewritePass sname strans sts).1
      if sname = "" then sts'
      else minEpsLoop fuel (removeName sname sts')

/-- Model of `DFA.minimise_epsilons` from src/dfa.py (the mutation of `self.states`; the
method also sets `epsilons_minimised`, handled at the call sites). -/
def minimiseEpsilons (sts : List StateD) : List StateD :=
  minEpsLoop (sts.length + 1) sts

/-! ## DFA.decide -/

/-- Model of `decide_recursive` from src/dfa.py, fuelled.  `possible_inputs` is a Python set,
modelled as a `Finset`.  A state already on the visited path means a reachable loop;
a `None` descriptor means reachable halting; an unconditional transition passes the
question to its destination; a `TransitionsRow` explores every row key belonging to
the admissible alphabet in row order, adds a halting option when the admissible keys
do not exhaust the alphabet, and ORs the options componentwise. -/
def decideRecF (M : DFAm) (A : Finset IOSym) : Nat → String → List String →
    Except String (Bool × Bool)
  | 0, _, _ => .error "fuel"
  | fuel + 1, start, visited =>
    if start ∈ visited then .ok (false, true)
    else
      match lookupSt M.states start with
      | none => .error "KeyError"
      | some st =>
        match st.transitions with
        | .unset => .error "AttributeError"
        | .pynone => .ok (true, false)
        | .eps t => decideRecF M A fuel t.state_to (visited ++ [start])
        | .row r => do
          let opts ← mapExcept
            (fun p => decideRecF M A fuel p.2.state_to (visited ++ [start]))
            (r.filter fun p => p.1 ∈ A)
          let piv := (r.filter fun p => p.1 ∈ A).length
          let opts := if piv < A.card then opts ++ [(true, false)] else opts
          .ok (opts.foldl (fun res o => (o.1 || res.1, o.2 || res.2)) (false, false))

/-- Model of `DFA.decide` from src/dfa.py: run the recursion from `start` with an empty path
and classify the (halt possible, loop possible) pair; the source raises when neither
is possible.  The fuel `M.states.length + 1` bounds the recursion depth: every
recursive call extends the visited path with a state name not yet on it, and a call
whose name is already on the path returns at once. -/
def decideF (M : DFAm) (start : String) (A : Finset IOSym) : Except String String := do
  let (halt_possible, loop_possible) ←
    decideRecF M A (M.states.length + 1) start []
  if halt_possible && loop_possible then
    .ok "may run forever or halt depending on input"
  else if !halt_possible && loop_possible then
    .ok "will run forever regardless of input"
  else if halt_possible && !loop_possible then
    .ok "will halt eventually regardless of input"
  else .error "should not happen: apparently neither loops nor halts"

/-! ## DFA.minimise

`minimise` first runs `minimise_epsilons` (unless already done), then fills a
distinctness table indexed by `itertools.combinations(self.states.keys(), 2)`, then
collapses equivalence classes.  `distinguish` threads the table (every computed
verdict is recorded through `record_distinctness`, which raises when the pair is
missing from the table) and carries a per-path `visited` dict from a state name to
the set of names it is provisionally paired with.  The `visited[state_a.name].add`
branch of the source is dead (a name already in `visited` returns earlier), so each
level installs a fresh singleton set, and the `dict(visited)` copies passed down
never observe later mutation.  The tuple-argument `assert` in the source is a no-op
and is omitted. -/

/-- The distinctness table: `combinations` keys in order, each mapped to
`None`/`False`/`True`. -/
def Table := List ((String × String) × Option Bool)

instance : DecidableEq Table := by unfold Table; infer_instance

/-- Model of `itertools.combinations(names, 2)`, in order. -/
def combos : List String → List (String × String)
  | [] => []
  | x :: xs => (xs.map fun y => (x, y)) ++ combos xs

/-- Model of `record_distinctness`: store the verdict under whichever orientation of the pair
the table holds, raising when neither is present. -/
def record (tbl : Table) (a b : String) (v : Bool) : Except String (Bool × Table) :=
  if (alLookup tbl (a, b)).isSome then
    .ok (v, alUpdate tbl (a, b) (some v))
  else if (alLookup tbl (b, a)).isSome then
    .ok (v, alUpdate tbl (b, a) (some v))
  else .error "state pair not found in distinctness table"

/-- Set equality of two key lists (Python compares `set(keys)`). -/
def sameKeySet (ka kb : List IOSym) : Bool :=
  ka.all (fun k => k ∈ kb) && kb.all (fun k => k ∈ ka)

/-- The `any([...])` body of the row case: walk `state_a`'s row in order; an edge
whose outputs differ contributes `False` without recursing (`and` short-circuits),
otherwise the destinations are compared recursively.  Returns the conjunct list and
the threaded table. -/
def rowConjuncts (recurse : String → String → Table → Except String (Bool × Table))
    (rb : List (IOSym × Transition)) :
    List (IOSym × Transition) → Table → Except String (List Bool × Table)
  | [], tbl => .ok ([], tbl)
  | (sym, ta) :: rest, tbl => do
    match rowLookup rb sym with
    | none => .error "KeyError"
    | some tb =>
      if ta.output = tb.output then do
        let (r, tbl') ← recurse ta.state_to tb.state_to tbl
        let (rs, tbl'') ← rowConjuncts recurse rb rest tbl'
        .ok (r :: rs, tbl'')
      else do
        let (rs, tbl') ← rowConjuncts recurse rb rest tbl
        .ok (false :: rs, tbl')

/-- Model of `distinguish` from src/dfa.py, fuelled.  Both names are looked up in the state
dict (`KeyError` when absent); equal names are never distinct (and not recorded); a
name on the visited path is distinct from `b` exactly when `b` is not in its
provisional set; a `None` descriptor matches only another `None`; two unconditional
transitions with equal outputs are indistinguishable (regardless of destination —
the source's self-loop assert is a no-op); two rows with equal key sets extend the
path and OR the per-symbol conjuncts; everything else is distinguishable. -/
def distinguishF (sts : List StateD) : Nat → String → String →
    List (String × List String) → Table → Except String (Bool × Table)
  | 0, _, _, _, _ => .error "fuel"
  | fuel + 1, a, b, visited, tbl =>
    match lookupSt sts a, lookupSt sts b with
    | none, _ => .error "KeyError"
    | _, none => .error "KeyError"
    | some sa, some sb =>
      if a = b then .ok (false, tbl)
      else
        match alLookup visited a with
        | some assumed => record tbl a b (decide (b ∉ assumed))
        | none =>
          match sa.transitions, sb.transitions with
          | .unset, _ => .error "AttributeError"
          | .pynone, .unset => .error "AttributeError"
          | .pynone, d => record tbl a b (decide (d ≠ .pynone))
          | .eps _, .unset => .error "AttributeError"
          | .eps ta, .eps tb =>
            if ta.output = tb.output then record tbl a b false
            else record tbl a b true
          | .eps _, _ => record tbl a b true
          | .row _, .unset => .error "AttributeError"
          | .row ra, .row rb =>
            if sameKeySet (ra.map Prod.fst) (rb.map Prod.fst) then do
              let visited' := visited ++ [(a, [b])]
              let (cs, tbl') ←
                rowConjuncts (fun x y t => distinguishF sts fuel x y visited' t)
                  rb ra tbl
              record tbl' a b (cs.any id)
            else record tbl a b true
          | .row _, _ => record tbl a b true

/-- The table-filling loop `for pair in distinctness_table: if ... is None:
distinguish(...)`, iterating over the original key list and threading the table. -/
def distLoop (sts : List StateD) (fuel : Nat) :
    Table → List (String × String) → Except String Table
  | tbl, [] => .ok tbl
  | tbl, p :: ps => do
    let tbl' ←
      if alLookup tbl p = some none then do
        let (_, t) ← distinguishF sts fuel p.1 p.2 [] tbl
        pure t
      else pure tbl
    distLoop sts fuel tbl' ps

/-- The class-union loop: `equivalence_classes` starts as name ↦ position, and every
pair whose table entry is falsy (`None` or `False`) copies the second name's current
class onto the first.  Both lookups always succeed (the table keys are combinations
of the dict's names), so a read uses default 0 only on unreachable paths. -/
def buildEqc (tbl : Table) : List (String × String) → List (String × Nat) →
    List (String × Nat)
  | [], eqc => eqc
  | p :: ps, eqc =>
    match (alLookup tbl p).getD none with
    | some true => buildEqc tbl ps eqc
    | _ => buildEqc tbl ps (alUpdate eqc p.1 (alGet eqc p.2 0))

/-- The representative-selection loop: walk the state names in dict order and write
the name as its class's representative unless the class already has the start state
as representative.  (The source's condition `c not in reps or reps[c] != start` is
exactly `alLookup reps c ≠ some start`.) -/
def buildReps (start : String) (eqc : List (String × Nat)) :
    List String → List (Nat × String) → List (Nat × String)
  | [], reps => reps
  | n :: ns, reps =>
    let c := alGet eqc n 0
    let reps' := if alLookup reps c ≠ some start then alUpdate reps c n else reps
    buildReps start eqc ns reps'

/-- Model of `representative_states[equivalence_classes[dest]]`: the representative a
destination is rewritten to; either missing key raises. -/
def repOfE (eqc : List (String × Nat)) (reps : List (Nat × String)) (d : String) :
    Except String String :=
  match alLookup eqc d with
  | none => .error "KeyError"
  | some c =>
    match alLookup reps c with
    | none => .error "KeyError"
    | some r => .ok r

/-- Rewriting one surviving state's destinations to representatives.  A state whose
descriptor matches neither `isinstance` test is left alone; reading an unset
attribute raises. -/
def rewriteState (eqc : List (String × Nat)) (reps : List (Nat × String))
    (st : StateD) : Except String StateD :=
  match st.transitions with
  | .eps t => do
    let r ← repOfE eqc reps t.state_to
    .ok ⟨st.name, .eps ⟨r, t.output⟩⟩
  | .row row => do
    let row' ← mapExcept
      (fun p => do
        let r ← repOfE eqc reps p.2.state_to
        .ok (p.1, Transition.mk r p.2.output))
      row
    .ok ⟨st.name, .row row'⟩
  | .unset => .error "AttributeError"
  | .pynone => .ok st

/-- The final loop of `minimise`: states whose name is not a representative are
collected for removal (and not rewritten); the rest are rewritten in place.  The
net effect on the ordered dict is this filtered, rewritten list. -/
def survivorsE (eqc : List (String × Nat)) (reps : List (Nat × String))
    (repVals : List String) : List StateD → Except String (List StateD)
  | [] => .ok []
  | st :: rest =>
    if st.name ∈ repVals then do
      let st' ← rewriteState eqc reps st
      let rest' ← survivorsE eqc reps repVals rest
      .ok (st' :: rest')
    else survivorsE eqc reps repVals rest

/-- The state list `minimise` works on: `minimise_epsilons` is run first unless the
flag says it already was. -/
def epsStates (M : DFAm) : List StateD :=
  if M.epsilons_minimised then M.states else minimiseEpsilons M.states

/-- The state names after the epsilon pass, in dict order. -/
def theNames (M : DFAm) : List String := (epsStates M).map StateD.name

/-- The distinctness-table keys. -/
def thePairs (M : DFAm) : List (String × String) := combos (theNames M)

/-- The completed distinctness table.  `distinguish`'s recursion depth is bounded by
the number of states (each level adds a fresh, successfully looked-up name to the
path), so `length + 1` fuel is never exhausted. -/
def theTbl (M : DFAm) : Except String Table :=
  distLoop (epsStates M) ((epsStates M).length + 1)
    ((thePairs M).map fun p => (p, (none : Option Bool))) (thePairs M)

/-- The equivalence-class map computed from a completed table. -/
def theEqc (M : DFAm) (tbl : Table) : List (String × Nat) :=
  buildEqc tbl (thePairs M) ((theNames M).enum.map fun p => (p.2, p.1))

/-- The class-representative map. -/
def theReps (M : DFAm) (tbl : Table) : List (Nat × String) :=
  buildReps M.start (theEqc M tbl) (theNames M) []

/-- Model of `DFA.minimise` from src/dfa.py: epsilon pass, distinctness table, class union,
representative selection (keeping the start name as its class's representative),
destination rewriting and removal of non-representatives. -/
def DFAminimise (M : DFAm) : Except String DFAm := do
  let tbl ← theTbl M
  let sur ← survivorsE (theEqc M tbl) (theReps M tbl)
    ((theReps M tbl).map Prod.snd) (epsStates M)
  .ok ⟨sur, M.start, true⟩

/-- The insertion loop of `DFA.__init__`: each state's name is checked against the
dict built so far and then inserted at the end. -/
def buildStatesLoop (acc : List StateD) : List StateD → Except String (List StateD)
  | [] => .ok acc
  | st :: rest =>
    if st.name ∈ acc.map StateD.name then .error "DFA given duplicate state name"
    else buildStatesLoop (acc ++ [st]) rest

/-- The duplicate-checked construction of `self.states` in `DFA.__init__`. -/
def buildStates (sts : List StateD) : Except String (List StateD) :=
  buildStatesLoop [] sts

/-- Model of `DFA.__init__` from src/dfa.py: insert the states (raising on a duplicate name),
check the start name exists, set `epsilons_minimised = False`, and minimise unless
`minimise = False` was passed. -/
def DFAinit (start : String) (sts : List StateD) (minimise : Bool) :
    Except String DFAm := do
  let m ← buildStates sts
  if start ∈ m.map StateD.name then
    let M : DFAm := ⟨m, start, false⟩
    if minimise then DFAminimise M else .ok M
  else .error "DFA given nonexistant start state"

/-! ## src/finity.py: the FSM-style compiler

`State` in src/finity.py carries a name (a program counter for generated states, the
string `start` for the renamed initial state) and an optional variable environment;
it hashes and compares by `hash(repr(self))`, i.e. by the name together with the
environment's items in insertion order, which we model structurally (hash collisions
aside).  The FSM state dict maps such a state to a pair `(output, transition)` where
the output slot holds `None`, a string, or a variable's value, and the transition is
`None` (halt), a `State` (epsilon) or a dict indexed by `0..MAXINT-1`.  The
interactive `FSM.run` console loop and the parser are outside the claims and are not
embedded. -/

/-- The fixed input-domain size `MAXINT` from src/finity.py. -/
def MAXINT : Nat := 4

/-- A Python value as produced by `run_expression` and stored in environments and
output slots: an integer, a string (the broken `/` branch returns the literal string
`//`), or `None` (an unrecognised operator prints a message and falls through,
returning `None`). -/
inductive Value where
  | vint (n : Int)
  | vstr (s : String)
  | vnone
  deriving DecidableEq, Repr, Inhabited

/-- Python truthiness of a `Value` (used by `conditionalgoto`). -/
def truthy : Value → Bool
  | .vint n => n ≠ 0
  | .vstr s => s ≠ ""
  | .vnone => false

/-- A state name in src/finity.py: a program counter or a plain string. -/
inductive FName where
  | num (n : Nat)
  | strn (s : String)
  deriving DecidableEq, Repr, Inhabited

/-- The compiler's `State`: name plus optional environment snapshot (compared with
the environment's insertion order, as `repr` equality does). -/
structure FState where
  name : FName
  vars : Option (List (String × Value))
  deriving DecidableEq, Repr, Inhabited

/-- Expression trees as the parser hands them to `run_expression`: a `value` node
holding a variable or number token, an `operation` node, or a bracketed
`expression` node. -/
inductive Expr where
  | evar (x : String)
  | enum (n : Int)
  | eop (a : Expr) (o : String) (b : Expr)
  | eparen (e : Expr)
  deriving DecidableEq, Repr

/-- Model of `run_expression` from src/finity.py.  A variable read of an unbound name raises
`KeyError`.  `+`, `-`, `*` use Python arithmetic (`+` also concatenates two
strings; other mixed-type arithmetic raises `TypeError` — Python's string
repetition for `*` is reachable only through the value of the broken `/` branch and
is modelled as the error case).  `/` evaluates both operands and then returns the
string `//` instead of dividing.  `>` and `<` compare two integers or two strings;
`==` compares values of any type.  An unrecognised operator prints and returns
`None`. -/
def runExpr : Expr → List (String × Value) → Except String Value
  | .evar x, vars =>
    match alLookup vars x with
    | none => .error "KeyError"
    | some v => .ok v
  | .enum n, _ => .ok (.vint n)
  | .eop ea o eb, vars => do
    let a ← runExpr ea vars
    let b ← runExpr eb vars
    if o = "+" then
      match a, b with
      | .vint x, .vint y => .ok (.vint (x + y))
      | .vstr x, .vstr y => .ok (.vstr (x ++ y))
      | _, _ => .error "TypeError"
    else if o = "-" then
      match a, b with
      | .vint x, .vint y => .ok (.vint (x - y))
      | _, _ => .error "TypeError"
    else if o = "*" then
      match a, b with
      | .vint x, .vint y => .ok (.vint (x * y))
      | _, _ => .error "TypeError"
    else if o = "/" then .ok (.vstr "//")
    else if o = ">" then
      match a, b with
      | .vint x, .vint y => .ok (.vint (if x > y then 1 else 0))
      | .vstr x, .vstr y => .ok (.vint (if x > y then 1 else 0))
      | _, _ => .error "TypeError"
    else if o = "<" then
      match a, b with
      | .vint x, .vint y => .ok (.vint (if x < y then 1 else 0))
      | .vstr x, .vstr y => .ok (.vint (if x < y then 1 else 0))
      | _, _ => .error "TypeError"
    else if o = "==" then .ok (.vint (if a = b then 1 else 0))
    else .ok .vnone
  | .eparen e, vars => runExpr e vars

/-- The operand of an `output` instruction: a string literal (already evaluated by
`literal_eval` at the parser boundary) or a variable name. -/
inductive OutArg where
  | ostr (s : String)
  | ovar (x : String)
  deriving DecidableEq, Repr

/-- One parsed instruction, as tagged by the grammar. -/
inductive Instr where
  | label (name : String)
  | goto (target : String)
  | condgoto (target : String) (cond : Expr)
  | input (x : String)
  | output (arg : OutArg)
  | assign (x : String) (e : Expr)
  deriving DecidableEq, Repr

/-- The label→index table built by `parse`: one pass over the instruction list,
recording each label's position (later duplicates overwrite). -/
def labelIndexOf (prog : List Instr) : List (String × Nat) :=
  (prog.enum.foldl
    (fun acc p =>
      match p.2 with
      | .label n => alUpdate acc n p.1
      | _ => acc)
    [])

/-- The transition slot of a generated FSM state: halt, epsilon, or an
input-indexed branch table. -/
inductive FTrans where
  | halt
  | eps (s : FState)
  | branch (t : List (Nat × FState))
  deriving DecidableEq, Repr, Inhabited

/-- The compiler's growing state dict. -/
def FStates := List (FState × (Value × FTrans))

instance : DecidableEq FStates := by unfold FStates; infer_instance

instance : Repr FStates := by unfold FStates; infer_instance

/-- Result of a fuelled run of `generate_states`: out of fuel, a raised exception
(or `exit()`), or the finished state dict. -/
inductive GenRes where
  | fuelOut
  | errGen (msg : String)
  | okSt (states : FStates)
  deriving DecidableEq, Repr

/-- A pending activation of `generate_states`: either the `while` loop positioned at
a line with an environment, or the `for n in range(MAXINT)` loop of an `input` line
with the values still to recurse on. -/
inductive GenCall where
  | atLine (pc : Nat) (vars : List (String × Value))
  | inputLoop (pending : List Nat) (pc : Nat) (x : String)
      (vars : List (String × Value))
  deriving DecidableEq, Repr

/-- Model of `generate_states` from src/finity.py, fuelled (one unit per loop iteration and
per recursive activation; the Python function recurses only at `input` lines and
otherwise loops in place).  At each iteration: past the end of the program the
current `(pc, environment)` state becomes a halting state and the dict is returned;
a `(pc, environment)` pair already materialised returns the dict unchanged (cycle
closure); otherwise the current line is simulated, the current state's entry is
written, and the loop advances.  An `input` line writes a `MAXINT`-way branch table
and then recurses once per input value, threading the dict. -/
def genGo (prog : List Instr) (li : List (String × Nat)) :
    Nat → GenCall → FStates → GenRes
  | 0, _, _ => .fuelOut
  | _ + 1, .inputLoop [] _ _ _, states => .okSt states
  | fuel + 1, .inputLoop (n :: ns) pc x vars, states =>
    match genGo prog li fuel (.atLine (pc + 1) (alUpdate vars x (.vint n))) states with
    | .okSt s' => genGo prog li fuel (.inputLoop ns pc x vars) s'
    | r => r
  | fuel + 1, .atLine pc vars, states =>
    let this : FState := ⟨.num pc, some vars⟩
    if prog.length ≤ pc then .okSt (alUpdate states this (.vnone, .halt))
    else if (alLookup states this).isSome then .okSt states
    else
      match prog[pc]? with
      | none => .errGen "unreachable: pc < len"
      | some line =>
        match line with
        | .label _ =>
          genGo prog li fuel (.atLine (pc + 1) vars)
            (alUpdate states this (.vnone, .eps ⟨.num (pc + 1), some vars⟩))
        | .goto t =>
          match alLookup li t with
          | none => .errGen "KeyError"
          | some i =>
            genGo prog li fuel (.atLine i vars)
              (alUpdate states this (.vnone, .eps ⟨.num i, some vars⟩))
        | .condgoto t e =>
          match runExpr e vars with
          | .error m => .errGen m
          | .ok v =>
            match (if truthy v then alLookup li t else some (pc + 1)) with
            | none => .errGen "KeyError"
            | some i =>
              genGo prog li fuel (.atLine i vars)
                (alUpdate states this (.vnone, .eps ⟨.num i, some vars⟩))
        | .input x =>
          let states1 := alUpdate states this
            (.vnone, .branch ((List.range MAXINT).map fun i =>
              (i, ⟨.num (pc + 1), some (alUpdate vars x (.vint i))⟩)))
          genGo prog li fuel (.inputLoop (List.range MAXINT) pc x vars) states1
        | .output a =>
          match a with
          | .ostr s =>
            genGo prog li fuel (.atLine (pc + 1) vars)
              (alUpdate states this (.vstr s, .eps ⟨.num (pc + 1), some vars⟩))
          | .ovar x =>
            match alLookup vars x with
            | none => .errGen "KeyError"
            | some v =>
              genGo prog li fuel (.atLine (pc + 1) vars)
                (alUpdate states this (v, .eps ⟨.num (pc + 1), some vars⟩))
        | .assign x e =>
          match runExpr e vars with
          | .error m => .errGen m
          | .ok v =>
            let vars' := alUpdate vars x v
            genGo prog li fuel (.atLine (pc + 1) vars')
              (alUpdate states this (.vnone, .eps ⟨.num (pc + 1), some vars'⟩))

/-- Model of `generate_states(AST, label_index)` with the default initial arguments. -/
def generateStates (prog : List Instr) (fuel : Nat) : GenRes :=
  genGo prog (labelIndexOf prog) fuel (.atLine 0 []) []

/-- Whether a fuelled run of the generator ever finishes (with a result or with an
exception): the generator terminates on `prog` exactly when some fuel suffices. -/
def genTerminates (prog : List Instr) : Prop :=
  ∃ fuel, generateStates prog fuel ≠ GenRes.fuelOut

/-- Removal of a key from the compiler's state dict (`states.pop(...)`). -/
def fstRemove (states : FStates) (k : FState) : FStates :=
  states.filter fun p => p.1 ≠ k

/-- Model of `compile` from src/finity.py (after parsing): generate the states, then bind the
`start` name to the entry of the initial state `(pc 0, empty environment)` and pop
the latter.  Destinations referencing the popped state are not rewritten. -/
def compileF (prog : List Instr) (fuel : Nat) : GenRes :=
  match generateStates prog fuel with
  | .okSt states =>
    match alLookup states ⟨.num 0, some []⟩ with
    | none => .errGen "KeyError"
    | some v =>
      .okSt (fstRemove (alUpdate states ⟨.strn "start", none⟩ v) ⟨.num 0, some []⟩)
  | r => r

/-- Every destination referenced by some transition of the state dict (epsilon
destinations and branch-table destinations). -/
def referencedDests (states : FStates) : List FState :=
  (states.map fun p =>
    match p.2.2 with
    | .halt => []
    | .eps s => [s]
    | .branch t => t.map Prod.snd).flatten

/-! ## Concrete automata and programs used by the claims -/

/-- An automaton (built with `minimise = False`) whose states `P` and `Q` have
identical row key sets but different outputs on the shared symbol `c`; `H1` and
`H2` are stuck states (empty rows). -/
def c1M : DFAm :=
  ⟨[⟨"A", .row [(IOSym.char "a", ⟨"P", []⟩), (IOSym.char "b", ⟨"Q", []⟩)]⟩,
    ⟨"P", .row [(IOSym.char "c", ⟨"H1", [IOSym.char "x"]⟩)]⟩,
    ⟨"Q", .row [(IOSym.char "c", ⟨"H2", [IOSym.char "y"]⟩)]⟩,
    ⟨"H1", .row []⟩,
    ⟨"H2", .row []⟩], "A", false⟩

/-- A single state with an unconditional self-looping transition emitting `x`. -/
def c2S : StateD := ⟨"S", .eps ⟨"S", [IOSym.char "x"]⟩⟩

/-- The states of the C3 scenario: identical key sets, differing outputs on the
shared symbol `c`. -/
def c3sts : List StateD :=
  [⟨"P", .row [(IOSym.char "c", ⟨"P", [IOSym.char "x"]⟩)]⟩,
   ⟨"Q", .row [(IOSym.char "c", ⟨"P", [IOSym.char "y"]⟩)]⟩]

/-- An automaton whose start state has a (non-self) unconditional transition. -/
def c4M : DFAm := ⟨[⟨"A", .eps ⟨"B", []⟩⟩, ⟨"B", .row []⟩], "A", false⟩

/-- A two-state automaton whose states merge into the start's class. -/
def c4W : DFAm :=
  ⟨[⟨"A", .row [(IOSym.char "a", ⟨"A", []⟩)]⟩,
    ⟨"B", .row [(IOSym.char "a", ⟨"B", []⟩)]⟩], "A", false⟩

/-- State `R` points at the epsilon state `S` (output `r` on the edge); `S` forwards to
`T` emitting `s`. -/
def c5sts : List StateD :=
  [⟨"R", .row [(IOSym.char "c", ⟨"S", [IOSym.char "r"]⟩)]⟩,
   ⟨"S", .eps ⟨"T", [IOSym.char "s"]⟩⟩,
   ⟨"T", .row []⟩]

/-- A DFA holding only the constructor-built halting state `H`. -/
def c6M : DFAm := ⟨[StateInit "H" InitArg.pynone], "H", false⟩

/-- The single-row automaton of the C7 witness. -/
def c7M : DFAm :=
  ⟨[⟨"S", .row [(IOSym.char "a", ⟨"T", []⟩)]⟩, ⟨"T", .pynone⟩], "S", true⟩

/-- The state list of the module-level `test` automaton in src/dfa.py. -/
def testM : List StateD :=
  [⟨"A", .row [(IOSym.char "a", ⟨"B1", [IOSym.char "x"]⟩),
               (IOSym.char "b", ⟨"preB2", []⟩)]⟩,
   ⟨"preB2", .eps ⟨"B2", [IOSym.char "y"]⟩⟩,
   ⟨"B1", .row [(IOSym.char "c", ⟨"A", [IOSym.char "z"]⟩)]⟩,
   ⟨"B2", .row [(IOSym.char "c", ⟨"A", [IOSym.char "z"]⟩)]⟩]

/-- The program `L: goto L` — its only `goto` jumps back to instruction 0 with the
empty environment. -/
def p8 : List Instr := [.label "L", .goto "L"]

/-- The state dict `compile` returns for `p8`. -/
def c8m : FStates :=
  [(⟨.num 1, some []⟩, (.vnone, .eps ⟨.num 0, some []⟩)),
   (⟨.strn "start", none⟩, (.vnone, .eps ⟨.num 1, some []⟩))]

/-- The program `a = 0; L: a = a + 1; goto L`, whose environment grows without
bound. -/
def p9 : List Instr :=
  [.assign "a" (.enum 0), .label "L",
   .assign "a" (.eop (.evar "a") "+" (.enum 1)), .goto "L"]

/-- The label table of `p9`. -/
def li9 : List (String × Nat) := labelIndexOf p9

/-- The environment after `n` passes of `p9`'s loop body. -/
def env9 (n : Nat) : List (String × Value) := [("a", Value.vint n)]

/-- The generated state of `p9` at program counter `p` with counter value `n`. -/
def st9 (p : Nat) (n : Nat) : FState := ⟨.num p, some (env9 n)⟩

/-! ## Claims -/

/-- C1: the claim states that `run`'s concatenated output is preserved by
`minimise` on inputs that halt on both sides.  It is not: on `c1M` the states `P`
and `Q` (same key set, different outputs on `c`) are merged, so the input `[a, c]`
halts on both sides but emits `x` before minimisation and `y` after. -/
theorem c1_minimise_changes_run_output :
    runF c1M "A" [IOSym.char "a", IOSym.char "c"] 5
      = RunRes.halted [IOSym.char "x"]
  ∧ (DFAminimise c1M).map
      (fun M => runF M M.start [IOSym.char "a", IOSym.char "c"] 5)
      = Except.ok (RunRes.halted [IOSym.char "y"])
  ∧ ([IOSym.char "x"] : List IOSym) ≠ [IOSym.char "y"] := by
  refine ⟨by decide, by decide, by decide⟩

/-- C2: the claim states that a state with a self-looping unconditional transition
survives `minimise_epsilons` with its transition and output unchanged.  The scan
has no self-loop guard: the sole state `S` (epsilon to itself, output `x`) is
selected, rewritten and popped, leaving an empty automaton. -/
theorem c2_selfloop_epsilon_removed : minimiseEpsilons [c2S] = [] := by decide

/-- C3: the claim states that two rows with the same key set but different outputs
on a shared symbol are classified distinguishable.  The source conjoins
`outputs equal AND destinations distinguishable`, so a differing output contributes
`False`: on `c3sts` the pair `(P, Q)` is recorded indistinguishable even though the
`c`-outputs `[x]` and `[y]` differ. -/
theorem c3_output_mismatch_not_distinguished :
    distinguishF c3sts 3 "P" "Q" [] [(("P", "Q"), none)]
      = Except.ok (false, [(("P", "Q"), some false)])
  ∧ ([IOSym.char "x"] : List IOSym) ≠ [IOSym.char "y"] := by
  refine ⟨by decide, by decide⟩

/-- C4 counterexample: the claim states the start name is still present in the
state set after minimisation.  On `c4M` the start state `A` carries a (non-self)
unconditional transition, so the epsilon pass inside `minimise` removes it: the
minimised state set is `["B"]` although the `start` field still says `A`. -/
theorem c4_start_name_dropped :
    (DFAminimise c4M).map (fun M => (M.start, M.states.map StateD.name))
      = Except.ok ("A", ["B"])
  ∧ "A" ∉ ["B"] := by
  refine ⟨by decide, by decide⟩

/-- C5 counterexample: the claim states the rewritten edge's output is `S`'s
epsilon output followed by `R`'s edge output.  Eliminating `S` from `c5sts` gives
`R` the output `[r, s]` — `R`'s own output first, `S`'s appended — which differs
from the claimed `[s] ++ [r]`. -/
theorem c5_eliminated_output_is_appended :
    minimiseEpsilons c5sts =
      [⟨"R", .row [(IOSym.char "c", ⟨"T", [IOSym.char "r", IOSym.char "s"]⟩)]⟩,
       ⟨"T", .row []⟩]
  ∧ ([IOSym.char "r", IOSym.char "s"] : List IOSym)
      ≠ [IOSym.char "s"] ++ [IOSym.char "r"] := by
  refine ⟨by decide, by decide⟩

/-- C6: the claim states `step` returns no next state, no output and the untouched
buffer for a halting (`None`-descriptor) state rather than failing.  `step`'s
`None` branch does behave that way, but `State.__init__` given `transitions = None`
never assigns the attribute, so `step` on a constructor-built halting state raises
`AttributeError` instead. -/
theorem c6_halting_state_step_raises :
    (StateInit "H" InitArg.pynone).transitions = TransAttr.unset
  ∧ stepF c6M (StateInit "H" InitArg.pynone) [] = Except.error "AttributeError"
  ∧ (∀ M : DFAm, ∀ buf : List IOSym,
      stepF M ⟨"H", TransAttr.pynone⟩ buf = Except.ok (none, [], buf)) := by
  refine ⟨by decide, by decide, fun M buf => rfl⟩

/-! Generic lemmas about the embedding's containers. -/

theorem bindOk {α β : Type} (a : α) (f : α → Except String β) :
    (Except.ok a >>= f) = f a := rfl

theorem bindErr {α β : Type} (e : String) (f : α → Except String β) :
    (Except.error e >>= f : Except String β) = Except.error e := rfl

theorem alLookup_nil {α β : Type} [DecidableEq α] (k : α) :
    alLookup ([] : List (α × β)) k = none := rfl

theorem alLookup_cons {α β : Type} [DecidableEq α] (k' : α) (v : β)
    (l : List (α × β)) (k : α) :
    alLookup ((k', v) :: l) k = if k' = k then some v else alLookup l k := by
  simp only [alLookup, List.find?_cons]
  by_cases h : k' = k
  · simp [h]
  · simp [h]

theorem alLookup_update_self {α β : Type} [DecidableEq α]
    (l : List (α × β)) (k : α) (v : β) :
    alLookup (alUpdate l k v) k = some v := by
  induction l with
  | nil => rw [alUpdate, alLookup_cons, if_pos rfl]
  | cons p rest ih =>
    obtain ⟨a, b⟩ := p
    simp only [alUpdate]
    by_cases h : a = k
    · rw [if_pos h, alLookup_cons, if_pos rfl]
    · rw [if_neg h, alLookup_cons, if_neg h, ih]

theorem alLookup_update_ne {α β : Type} [DecidableEq α]
    (l : List (α × β)) (k k' : α) (v : β) (h : k' ≠ k) :
    alLookup (alUpdate l k v) k' = alLookup l k' := by
  induction l with
  | nil => rw [alUpdate, alLookup_cons, if_neg h.symm, alLookup_nil]
  | cons p rest ih =>
    obtain ⟨a, b⟩ := p
    simp only [alUpdate]
    by_cases hp : a = k
    · rw [if_pos hp, alLookup_cons, if_neg h.symm, alLookup_cons,
        if_neg (by rw [hp]; exact h.symm)]
    · rw [if_neg hp, alLookup_cons, alLookup_cons, ih]

theorem alLookup_mem_values {α β : Type} [DecidableEq α]
    (l : List (α × β)) (k : α) (v : β) (h : alLookup l k = some v) :
    v ∈ l.map Prod.snd := by
  induction l with
  | nil => rw [alLookup_nil] at h; exact absurd h (by simp)
  | cons p rest ih =>
    obtain ⟨a, b⟩ := p
    rw [alLookup_cons] at h
    by_cases hp : a = k
    · rw [if_pos hp] at h
      injection h with h
      simp [h]
    · rw [if_neg hp] at h
      simp [ih h]

theorem buildStatesLoop_eq :
    ∀ sts acc m, buildStatesLoop acc sts = Except.ok m → m = acc ++ sts := by
  intro sts
  induction sts with
  | nil =>
    intro acc m h
    unfold buildStatesLoop at h
    injection h with h
    rw [← h, List.append_nil]
  | cons st rest ih =>
    intro acc m h
    unfold buildStatesLoop at h
    split at h
    · exact absurd h (by simp)
    · rw [ih (acc ++ [st]) m h]
      simp

theorem buildStates_eq {sts m : List StateD}
    (h : buildStates sts = Except.ok m) : m = sts := by
  simpa using buildStatesLoop_eq sts [] m h

/-! Lemmas about the epsilon-elimination rewrite, for claim C5. -/

theorem findFirstEps_spec :
    ∀ sts n t, findFirstEps sts = some (n, t) →
      ∃ st ∈ sts, st.name = n ∧ st.transitions = TransAttr.eps t := by
  intro sts
  induction sts with
  | nil => intro n t h; exact absurd h (by simp [findFirstEps])
  | cons s rest ih =>
    intro n t h
    unfold findFirstEps at h
    split at h
    · rename_i t' ht'
      injection h with h
      have h1 : s.name = n := congrArg Prod.fst h
      have h2 : t' = t := congrArg Prod.snd h
      exact ⟨s, List.mem_cons_self _ _, h1, by rw [ht', h2]⟩
    · obtain ⟨st, hmem, hn, htr⟩ := ih n t h
      exact ⟨st, List.mem_cons_of_mem _ hmem, hn, htr⟩

theorem rewriteStep_snd (sname : String) (cur : Transition) (st : StateD)
    (h : st.name = sname → ∀ t, st.transitions = TransAttr.eps t →
      t.state_to ≠ sname) :
    (rewriteStep sname cur st).2 = cur := by
  unfold rewriteStep
  split
  · rename_i t ht
    split
    · rename_i hto
      by_cases hs : st.name = sname
      · exact absurd hto (h hs t ht)
      · simp [hs]
    · rfl
  · rfl
  · rfl

theorem rewritePass_const (sname : String) (cur : Transition) :
    ∀ sts,
      (∀ st ∈ sts, st.name = sname → ∀ t, st.transitions = TransAttr.eps t →
        t.state_to ≠ sname) →
      rewritePass sname cur sts
        = (sts.map (fun st => (rewriteStep sname cur st).1), cur) := by
  intro sts
  induction sts with
  | nil => intro h; rfl
  | cons s rest ih =>
    intro h
    simp only [rewritePass]
    rw [rewriteStep_snd sname cur s (h s (List.mem_cons_self _ _)),
      ih (fun st hm => h st (List.mem_cons_of_mem _ hm))]
    simp [List.map_cons]

/-- C5 (amended): when the epsilon pass eliminates the state named `sname` (the
first state carrying an unconditional transition, here not a self loop) and
rewrites another state's edge that pointed at it, the rewritten edge's output is
the surviving edge's own output followed by the eliminated hop's output — the
source appends `S`'s output after `R`'s, matching traversal order, not the other
way round as the original claim stated. -/
theorem c5_surviving_output_precedes (sts : List StateD) (sname : String)
    (strans : Transition)
    (hf : findFirstEps sts = some (sname, strans))
    (hns : strans.state_to ≠ sname)
    (hnd : (sts.map StateD.name).Nodup)
    (R : StateD) (hR : R ∈ sts) :
    ∃ R' ∈ (rewritePass sname strans sts).1, R'.name = R.name
      ∧ (∀ t, R.transitions = TransAttr.eps t → t.state_to = sname →
          R'.transitions
            = TransAttr.eps ⟨strans.state_to, t.output ++ strans.output⟩)
      ∧ (∀ row, R.transitions = TransAttr.row row →
          ∃ row', R'.transitions = TransAttr.row row'
            ∧ ∀ k t, (k, t) ∈ row → t.state_to = sname →
                (k, Transition.mk strans.state_to (t.output ++ strans.output))
                  ∈ row') := by
  obtain ⟨S, hSmem, hSname, hStr⟩ := findFirstEps_spec sts sname strans hf
  have hnotrig : ∀ st ∈ sts, st.name = sname →
      ∀ t, st.transitions = TransAttr.eps t → t.state_to ≠ sname := by
    intro st hst hname t ht
    have heq : st = S :=
      List.inj_on_of_nodup_map hnd hst hSmem (by rw [hname, hSname])
    subst heq
    rw [hStr] at ht
    injection ht with ht
    rw [← ht]
    exact hns
  rw [rewritePass_const sname strans sts hnotrig]
  refine ⟨(rewriteStep sname strans R).1, List.mem_map_of_mem _ hR, ?_, ?_, ?_⟩
  · unfold rewriteStep
    split
    · split
      · rfl
      · rfl
    · rfl
    · rfl
  · intro t ht hto
    unfold rewriteStep
    rw [ht]
    simp [hto]
  · intro row hrow
    unfold rewriteStep
    rw [hrow]
    refine ⟨_, rfl, ?_⟩
    intro k t hkt hto
    have : (k, Transition.mk strans.state_to (t.output ++ strans.output))
        = (fun p : IOSym × Transition =>
            if p.2.state_to = sname then
              (p.1, Transition.mk strans.state_to (p.2.output ++ strans.output))
            else p) (k, t) := by
      simp [hto]
    rw [this]
    exact List.mem_map_of_mem _ hkt

/-- C5 witness: the general ordering theorem applied to the concrete `c5sts`
elimination. -/
theorem c5_surviving_output_precedes_witness :
    ∃ R' ∈ (rewritePass "S" ⟨"T", [IOSym.char "s"]⟩ c5sts).1,
      R'.name = "R"
      ∧ (∀ t, (⟨"R", TransAttr.row [(IOSym.char "c", ⟨"S", [IOSym.char "r"]⟩)]⟩
            : StateD).transitions = TransAttr.eps t → t.state_to = "S" →
          R'.transitions
            = TransAttr.eps ⟨"T", t.output ++ [IOSym.char "s"]⟩)
      ∧ (∀ row, (⟨"R", TransAttr.row [(IOSym.char "c", ⟨"S", [IOSym.char "r"]⟩)]⟩
            : StateD).transitions = TransAttr.row row →
          ∃ row', R'.transitions = TransAttr.row row'
            ∧ ∀ k t, (k, t) ∈ row → t.state_to = "S" →
                (k, Transition.mk "T" (t.output ++ [IOSym.char "s"])) ∈ row') :=
  c5_surviving_output_precedes c5sts "S" ⟨"T", [IOSym.char "s"]⟩ (by decide)
    (by decide) (by decide)
    ⟨"R", TransAttr.row [(IOSym.char "c", ⟨"S", [IOSym.char "r"]⟩)]⟩ (by decide)

/-! Lemmas about the representative-selection fold and the survivor loop, for
claim C4. -/

theorem buildReps_stable (start : String) (eqc : List (String × Nat)) (c : Nat) :
    ∀ ns reps, alLookup reps c = some start →
      alLookup (buildReps start eqc ns reps) c = some start := by
  intro ns
  induction ns with
  | nil => intro reps h; exact h
  | cons n ns ih =>
    intro reps h
    simp only [buildReps]
    by_cases hcond : alLookup reps (alGet eqc n 0) ≠ some start
    · rw [if_pos hcond]
      have hc : alGet eqc n 0 ≠ c := fun hh => hcond (by rw [hh]; exact h)
      exact ih _ (by rw [alLookup_update_ne _ _ _ _ (Ne.symm hc)]; exact h)
    · rw [if_neg hcond]
      exact ih reps h

theorem buildReps_start (start : String) (eqc : List (String × Nat)) :
    ∀ ns reps, start ∈ ns →
      alLookup (buildReps start eqc ns reps) (alGet eqc start 0) = some start := by
  intro ns
  induction ns with
  | nil => intro reps h; exact absurd h (List.not_mem_nil _)
  | cons n ns ih =>
    intro reps hmem
    simp only [buildReps]
    by_cases hn : n = start
    · subst hn
      by_cases hcond : alLookup reps (alGet eqc n 0) ≠ some n
      · rw [if_pos hcond]
        exact buildReps_stable _ _ _ ns _ (alLookup_update_self _ _ _)
      · rw [if_neg hcond]
        push_neg at hcond
        exact buildReps_stable _ _ _ ns _ hcond
    · have hmem' : start ∈ ns := by
        rcases List.mem_cons.mp hmem with h | h
        · exact absurd h.symm hn
        · exact h
      exact ih _ hmem'

theorem rewriteState_name (eqc : List (String × Nat)) (reps : List (Nat × String))
    (st st' : StateD) (h : rewriteState eqc reps st = Except.ok st') :
    st'.name = st.name := by
  unfold rewriteState at h
  split at h
  · rename_i t htr
    cases hr : repOfE eqc reps t.state_to with
    | error e => rw [hr, bindErr] at h; exact absurd h (by simp)
    | ok r =>
      rw [hr, bindOk] at h
      injection h with h
      rw [← h]
  · rename_i row hrow
    cases hm : mapExcept
        (fun p => do
          let r ← repOfE eqc reps p.2.state_to
          Except.ok (p.1, Transition.mk r p.2.output)) row with
    | error e => rw [hm, bindErr] at h; exact absurd h (by simp)
    | ok row' =>
      rw [hm, bindOk] at h
      injection h with h
      rw [← h]
  · exact absurd h (by simp)
  · injection h with h
    rw [← h]

theorem survivorsE_keeps (eqc : List (String × Nat)) (reps : List (Nat × String))
    (rv : List String) :
    ∀ sts sur, survivorsE eqc reps rv sts = Except.ok sur →
      ∀ st ∈ sts, st.name ∈ rv → st.name ∈ sur.map StateD.name := by
  intro sts
  induction sts with
  | nil => intro sur h st hst; exact absurd hst (List.not_mem_nil _)
  | cons s rest ih =>
    intro sur h st hst hrv
    unfold survivorsE at h
    by_cases hs : s.name ∈ rv
    · rw [if_pos hs] at h
      cases hr : rewriteState eqc reps s with
      | error e => rw [hr, bindErr] at h; exact absurd h (by simp)
      | ok s' =>
        rw [hr, bindOk] at h
        cases hrest : survivorsE eqc reps rv rest with
        | error e => rw [hrest, bindErr] at h; exact absurd h (by simp)
        | ok rest' =>
          rw [hrest, bindOk] at h
          injection h with h
          rw [← h]
          rcases List.mem_cons.mp hst with rfl | hmem
          · simp [rewriteState_name eqc reps st s' hr]
          · simp [ih rest' hrest st hmem hrv]
    · rw [if_neg hs] at h
      rcases List.mem_cons.mp hst with rfl | hmem
      · exact absurd hrv hs
      · exact ih sur h st hmem hrv

/-- C4 (amended): `minimise` never changes the `start` field, and whenever the
start state survives the epsilon pass (its name is still among the state names the
distinctness analysis works on), the class containing it takes the start's own name
as representative: the start name is present in the minimised state set, and every
destination whose class is the start's class is rewritten to the start name.  (The
unamended claim fails when the epsilon pass removes the start state, see the
counterexample.) -/
theorem c4_start_name_preserved (M M' : DFAm) (tbl : Table)
    (htbl : theTbl M = Except.ok tbl)
    (hok : DFAminimise M = Except.ok M')
    (hsurv : M.start ∈ theNames M) :
    M'.start = M.start
  ∧ M.start ∈ M'.states.map StateD.name
  ∧ (∀ d r, repOfE (theEqc M tbl) (theReps M tbl) d = Except.ok r →
       alGet (theEqc M tbl) d 0 = alGet (theEqc M tbl) M.start 0 →
       r = M.start) := by
  unfold DFAminimise at hok
  rw [htbl, bindOk] at hok
  cases hs : survivorsE (theEqc M tbl) (theReps M tbl)
      ((theReps M tbl).map Prod.snd) (epsStates M) with
  | error e => rw [hs, bindErr] at hok; exact absurd hok (by simp)
  | ok sur =>
    rw [hs, bindOk] at hok
    injection hok with hok
    subst hok
    have hreps : alLookup (theReps M tbl) (alGet (theEqc M tbl) M.start 0)
        = some M.start :=
      buildReps_start M.start (theEqc M tbl) (theNames M) [] hsurv
    refine ⟨rfl, ?_, ?_⟩
    · unfold theNames at hsurv
      obtain ⟨st, hstmem, hstname⟩ := List.mem_map.mp hsurv
      have hrv : st.name ∈ (theReps M tbl).map Prod.snd := by
        rw [hstname]
        exact alLookup_mem_values _ _ _ hreps
      have := survivorsE_keeps _ _ _ (epsStates M) sur hs st hstmem hrv
      rw [hstname] at this
      exact this
    · intro d r hrep hcls
      unfold repOfE at hrep
      split at hrep
      · exact absurd hrep (by simp)
      · rename_i c hd
        split at hrep
        · exact absurd hrep (by simp)
        · rename_i r0 hc
          injection hrep with hrep
          have hcc : c = alGet (theEqc M tbl) M.start 0 := by
            rw [← hcls]
            simp [alGet, hd]
          rw [hcc, hreps] at hc
          injection hc with hc
          rw [← hrep, ← hc]

/-- C4 witness: on `c4W` the merged class of `A` and `B` keeps the start name `A`
in the minimised state set. -/
theorem c4_start_name_preserved_witness :
    ("A" : String) ∈
      (⟨[⟨"A", TransAttr.row [(IOSym.char "a", ⟨"A", []⟩)]⟩], "A", true⟩
        : DFAm).states.map StateD.name :=
  (c4_start_name_preserved c4W
    ⟨[⟨"A", TransAttr.row [(IOSym.char "a", ⟨"A", []⟩)]⟩], "A", true⟩
    [(("A", "B"), some false)] (by decide) (by decide) (by decide)).2.1

/-! Lemmas for claim C7: membership through `mapExcept`, the OR fold, and the
key-coverage count. -/

theorem mapExcept_mem {α β : Type} (f : α → Except String β) :
    ∀ l ys, mapExcept f l = Except.ok ys →
      ∀ b, (b ∈ ys ↔ ∃ a ∈ l, f a = Except.ok b) := by
  intro l
  induction l with
  | nil =>
    intro ys h b
    unfold mapExcept at h
    injection h with h
    rw [← h]
    simp
  | cons x xs ih =>
    intro ys h b
    unfold mapExcept at h
    cases hx : f x with
    | error e => rw [hx, bindErr] at h; exact absurd h (by simp)
    | ok y =>
      rw [hx, bindOk] at h
      cases hxs : mapExcept f xs with
      | error e => rw [hxs, bindErr] at h; exact absurd h (by simp)
      | ok ys' =>
        rw [hxs, bindOk] at h
        injection h with h
        rw [← h]
        constructor
        · intro hb
          rcases List.mem_cons.mp hb with rfl | hb'
          · exact ⟨x, List.mem_cons_self _ _, hx⟩
          · obtain ⟨a, ha, hfa⟩ := (ih ys' hxs b).mp hb'
            exact ⟨a, List.mem_cons_of_mem _ ha, hfa⟩
        · rintro ⟨a, ha, hfa⟩
          rcases List.mem_cons.mp ha with rfl | ha'
          · rw [hx] at hfa
            injection hfa with hfa
            rw [← hfa]
            exact List.mem_cons_self _ _
          · exact List.mem_cons_of_mem _ ((ih ys' hxs b).mpr ⟨a, ha', hfa⟩)

theorem foldl_orPair :
    ∀ (l : List (Bool × Bool)) (b1 b2 : Bool),
      l.foldl (fun res o => (o.1 || res.1, o.2 || res.2)) (b1, b2)
        = (b1 || l.any Prod.fst, b2 || l.any Prod.snd) := by
  intro l
  induction l with
  | nil => intro b1 b2; simp
  | cons o l ih =>
    intro b1 b2
    simp only [List.foldl_cons, List.any_cons]
    rw [ih]
    refine Prod.ext ?_ ?_ <;>
      simp [Bool.or_comm, Bool.or_assoc, Bool.or_left_comm]

theorem filter_keys_length (r : List (IOSym × Transition)) (A : Finset IOSym) :
    (r.filter fun p => decide (p.1 ∈ A)).length
      = ((r.map Prod.fst).filter fun k => decide (k ∈ A)).length := by
  induction r with
  | nil => rfl
  | cons p r ih =>
    simp only [List.map_cons, List.filter_cons]
    by_cases h : p.1 ∈ A
    · simp [h, ih]
    · simp [h, ih]

theorem uncovered_iff {r : List (IOSym × Transition)} {A : Finset IOSym}
    (hnd : (r.map Prod.fst).Nodup) :
    (r.filter fun p => decide (p.1 ∈ A)).length < A.card
      ↔ ∃ a ∈ A, a ∉ r.map Prod.fst := by
  rw [filter_keys_length]
  have h1 : ((r.map Prod.fst).filter fun k => decide (k ∈ A)).length
      = ((r.map Prod.fst).toFinset ∩ A).card := by
    rw [← List.toFinset_card_of_nodup (hnd.filter _), List.toFinset_filter]
    simp only [decide_eq_true_eq]
    rw [Finset.filter_mem_eq_inter]
  rw [h1]
  have hsub : (r.map Prod.fst).toFinset ∩ A ⊆ A := Finset.inter_subset_right
  constructor
  · intro hlt
    have hss : (r.map Prod.fst).toFinset ∩ A ⊂ A :=
      lt_of_le_of_ne hsub (fun he => by rw [he] at hlt; exact lt_irrefl _ hlt)
    obtain ⟨a, haA, hanot⟩ := Finset.exists_of_ssubset hss
    refine ⟨a, haA, fun hmem => hanot ?_⟩
    exact Finset.mem_inter.mpr ⟨List.mem_toFinset.mpr hmem, haA⟩
  · rintro ⟨a, haA, hanot⟩
    refine Finset.card_lt_card ?_
    rw [Finset.ssubset_iff_of_subset hsub]
    exact ⟨a, haA,
      fun hmem => hanot (List.mem_toFinset.mp (Finset.mem_inter.mp hmem).1)⟩

theorem opts_exists_fst (M : DFAm) (A : Finset IOSym) (fuel : Nat)
    (visited' : List String) (r : List (IOSym × Transition))
    (opts : List (Bool × Bool))
    (hm : mapExcept (fun p => decideRecF M A fuel p.2.state_to visited')
        (r.filter fun p => decide (p.1 ∈ A)) = Except.ok opts) :
    (opts.any Prod.fst = true ↔
      ∃ p ∈ r, p.1 ∈ A ∧ ∃ lp,
        decideRecF M A fuel p.2.state_to visited' = Except.ok (true, lp)) := by
  rw [List.any_eq_true]
  constructor
  · rintro ⟨b, hb, hb1⟩
    obtain ⟨a, haf, hfa⟩ := (mapExcept_mem _ _ _ hm b).mp hb
    have hmf := List.mem_filter.mp haf
    refine ⟨a, hmf.1, of_decide_eq_true hmf.2, b.2, ?_⟩
    rw [show b = (true, b.2) from by rw [← hb1]] at hfa
    exact hfa
  · rintro ⟨p, hp, hpA, lp, hcall⟩
    refine ⟨(true, lp), ?_, rfl⟩
    exact (mapExcept_mem _ _ _ hm (true, lp)).mpr
      ⟨p, List.mem_filter.mpr ⟨hp, decide_eq_true hpA⟩, hcall⟩

theorem opts_exists_snd (M : DFAm) (A : Finset IOSym) (fuel : Nat)
    (visited' : List String) (r : List (IOSym × Transition))
    (opts : List (Bool × Bool))
    (hm : mapExcept (fun p => decideRecF M A fuel p.2.state_to visited')
        (r.filter fun p => decide (p.1 ∈ A)) = Except.ok opts) :
    (opts.any Prod.snd = true ↔
      ∃ p ∈ r, p.1 ∈ A ∧ ∃ hp,
        decideRecF M A fuel p.2.state_to visited' = Except.ok (hp, true)) := by
  rw [List.any_eq_true]
  constructor
  · rintro ⟨b, hb, hb2⟩
    obtain ⟨a, haf, hfa⟩ := (mapExcept_mem _ _ _ hm b).mp hb
    have hmf := List.mem_filter.mp haf
    refine ⟨a, hmf.1, of_decide_eq_true hmf.2, b.1, ?_⟩
    rw [show b = (b.1, true) from by rw [← hb2]] at hfa
    exact hfa
  · rintro ⟨p, hp, hpA, hp1, hcall⟩
    refine ⟨(hp1, true), ?_, rfl⟩
    exact (mapExcept_mem _ _ _ hm (hp1, true)).mpr
      ⟨p, List.mem_filter.mpr ⟨hp, decide_eq_true hpA⟩, hcall⟩

/-- C7: for a state carrying a `TransitionRow`, the analyzer's verdict is the
componentwise OR over the recursive verdicts of the destinations of every row key
lying in the admissible alphabet, with "halt possible" additionally true exactly
when the row's keys do not cover every admissible symbol. -/
theorem c7_decide_row_verdict (M : DFAm) (A : Finset IOSym) (fuel : Nat)
    (s : String) (visited : List String) (st : StateD)
    (r : List (IOSym × Transition)) (v : Bool × Bool)
    (hs : lookupSt M.states s = some st)
    (hr : st.transitions = TransAttr.row r)
    (hnv : s ∉ visited)
    (hkeys : (r.map Prod.fst).Nodup)
    (hok : decideRecF M A (fuel + 1) s visited = Except.ok v) :
    (v.1 = true ↔
      ((∃ a ∈ A, a ∉ r.map Prod.fst)
        ∨ ∃ p ∈ r, p.1 ∈ A ∧ ∃ lp,
            decideRecF M A fuel p.2.state_to (visited ++ [s])
              = Except.ok (true, lp)))
  ∧ (v.2 = true ↔
      ∃ p ∈ r, p.1 ∈ A ∧ ∃ hp,
        decideRecF M A fuel p.2.state_to (visited ++ [s])
          = Except.ok (hp, true)) := by
  unfold decideRecF at hok
  rw [if_neg hnv] at hok
  split at hok
  · rename_i hnone
    rw [hs] at hnone
    exact absurd hnone (by simp)
  · rename_i st' hsome
    rw [hs] at hsome
    injection hsome with hsome
    subst hsome
    split at hok
    · rename_i htr
      rw [hr] at htr
      exact absurd htr (by simp)
    · rename_i htr
      rw [hr] at htr
      exact absurd htr (by simp)
    · rename_i t htr
      rw [hr] at htr
      exact absurd htr (by simp)
    · rename_i r' htr
      rw [hr] at htr
      injection htr with htr
      subst htr
      cases hm : mapExcept
          (fun p => decideRecF M A fuel p.2.state_to (visited ++ [s]))
          (r.filter fun p => decide (p.1 ∈ A)) with
      | error e => rw [hm, bindErr] at hok; exact absurd hok (by simp)
      | ok opts =>
        rw [hm, bindOk] at hok
        injection hok with hok
        by_cases hpiv : (r.filter fun p => decide (p.1 ∈ A)).length < A.card
        · rw [if_pos hpiv, foldl_orPair] at hok
          rw [← hok]
          constructor
          · simp only [List.any_append, Bool.false_or]
            constructor
            · intro _
              exact Or.inl ((uncovered_iff hkeys).mp hpiv)
            · intro _
              simp
          · simp only [List.any_append, Bool.false_or]
            rw [show (([(true, false)] : List (Bool × Bool)).any Prod.snd)
                = false from rfl]
            rw [Bool.or_false]
            exact opts_exists_snd M A fuel (visited ++ [s]) r opts hm
        · rw [if_neg hpiv, foldl_orPair] at hok
          rw [← hok]
          simp only [Bool.false_or]
          constructor
          · rw [opts_exists_fst M A fuel (visited ++ [s]) r opts hm]
            constructor
            · exact Or.inr
            · rintro (hunc | hbranch)
              · exact absurd ((uncovered_iff hkeys).mpr hunc) hpiv
              · exact hbranch
          · exact opts_exists_snd M A fuel (visited ++ [s]) r opts hm

/-- C7 witness: the row-case characterisation applied to the automaton `c7M` with
admissible alphabet `{a}`. -/
theorem c7_decide_row_verdict_witness :
    ((true : Bool) = true ↔
      ((∃ a ∈ ({IOSym.char "a"} : Finset IOSym),
          a ∉ [(IOSym.char "a", Transition.mk "T" [])].map Prod.fst)
        ∨ ∃ p ∈ [(IOSym.char "a", Transition.mk "T" [])],
            p.1 ∈ ({IOSym.char "a"} : Finset IOSym) ∧ ∃ lp,
              decideRecF c7M {IOSym.char "a"} 1 p.2.state_to ([] ++ ["S"])
                = Except.ok (true, lp)))
  ∧ ((false : Bool) = true ↔
      ∃ p ∈ [(IOSym.char "a", Transition.mk "T" [])],
        p.1 ∈ ({IOSym.char "a"} : Finset IOSym) ∧ ∃ hp,
          decideRecF c7M {IOSym.char "a"} 1 p.2.state_to ([] ++ ["S"])
            = Except.ok (hp, true)) :=
  c7_decide_row_verdict c7M {IOSym.char "a"} 1 "S" []
    ⟨"S", TransAttr.row [(IOSym.char "a", Transition.mk "T" [])]⟩
    [(IOSym.char "a", Transition.mk "T" [])] (true, false)
    (by decide) (by decide) (by decide) (by decide) (by decide)

/-- C10: constructing a `DFA` without `minimise = False` runs the minimisation
pipeline (epsilon elimination followed by `minimise`) inside the constructor, so
the caller receives the minimised automaton — on the module's own test automaton,
2 states instead of the 4 passed in — while `minimise = False` yields an automaton
holding exactly the given states. -/
theorem c10_constructor_minimises :
    (∀ start sts M, DFAinit start sts false = Except.ok M →
        M.states = sts ∧ M.start = start ∧ M.epsilons_minimised = false)
  ∧ (∀ start sts,
        DFAinit start sts true = (DFAinit start sts false).bind DFAminimise)
  ∧ (DFAinit "A" testM true).map (fun M => M.states.length) = Except.ok 2
  ∧ testM.length = 4 := by
  refine ⟨?_, ?_, by decide, by decide⟩
  · intro start sts M h
    unfold DFAinit at h
    cases hb : buildStates sts with
    | error e => rw [hb, bindErr] at h; exact absurd h (by simp)
    | ok m =>
      rw [hb, bindOk] at h
      split at h
      · simp only [Bool.false_eq_true, if_false] at h
        injection h with h
        rw [← h, buildStates_eq hb]
        exact ⟨rfl, rfl, rfl⟩
      · exact absurd h (by simp)
  · intro start sts
    unfold DFAinit
    cases hb : buildStates sts with
    | error e => rw [bindErr, bindErr]; rfl
    | ok m =>
      rw [bindOk, bindOk]
      split
      · simp [Except.bind]
      · rfl

/-- C10 witness: constructing with `minimise = False` keeps the given state list. -/
theorem c10_constructor_minimises_witness :
    (⟨[⟨"X", TransAttr.row []⟩], "X", false⟩ : DFAm).states
      = [⟨"X", TransAttr.row []⟩] :=
  (c10_constructor_minimises.1 "X" [⟨"X", TransAttr.row []⟩]
    ⟨[⟨"X", TransAttr.row []⟩], "X", false⟩ (by decide)).1

/-! Lemmas for claim C9: on `p9` the generator revisits program counters 1, 2, 3
with a strictly growing counter value, so no `(pc, environment)` pair ever recurs
and every fuel bound is exhausted. -/

/-- States of `p9`'s loop that the generator has not yet materialised, from counter
value `n` upwards. -/
def inv9 (n : Nat) (s : FStates) : Prop :=
  ∀ m, n ≤ m →
    alLookup s (st9 1 m) = none ∧ alLookup s (st9 2 m) = none
      ∧ alLookup s (st9 3 (m + 1)) = none

theorem st9_ne {p m p' m' : Nat} (h : p ≠ p' ∨ m ≠ m') : st9 p m ≠ st9 p' m' := by
  intro he
  simp only [st9, env9, FState.mk.injEq, FName.num.injEq, Option.some.injEq,
    List.cons.injEq, Prod.mk.injEq, Value.vint.injEq] at he
  rcases h with h | h
  · exact h he.1
  · exact h (by exact_mod_cast he.2.1.2)

theorem gen9_step1 (fuel n : Nat) (s : FStates)
    (h1 : alLookup s (st9 1 n) = none) :
    genGo p9 li9 (fuel + 1) (.atLine 1 (env9 n)) s
      = genGo p9 li9 fuel (.atLine 2 (env9 n))
          (alUpdate s (st9 1 n) (.vnone, .eps (st9 2 n))) := by
  simp only [st9, env9] at h1 ⊢
  simp only [genGo]
  rw [h1]
  rfl

theorem gen9_step2 (fuel n : Nat) (s : FStates)
    (h2 : alLookup s (st9 2 n) = none) :
    genGo p9 li9 (fuel + 1) (.atLine 2 (env9 n)) s
      = genGo p9 li9 fuel (.atLine 3 (env9 (n + 1)))
          (alUpdate s (st9 2 n) (.vnone, .eps (st9 3 (n + 1)))) := by
  simp only [st9, env9] at h2 ⊢
  simp only [genGo]
  rw [h2]
  rfl

theorem gen9_step3 (fuel n : Nat) (s : FStates)
    (h3 : alLookup s (st9 3 (n + 1)) = none) :
    genGo p9 li9 (fuel + 1) (.atLine 3 (env9 (n + 1))) s
      = genGo p9 li9 fuel (.atLine 1 (env9 (n + 1)))
          (alUpdate s (st9 3 (n + 1)) (.vnone, .eps (st9 1 (n + 1)))) := by
  simp only [st9, env9] at h3 ⊢
  simp only [genGo]
  rw [h3]
  rfl

theorem gen9_spin : ∀ fuel : Nat,
    (∀ n s, inv9 n s →
      genGo p9 li9 fuel (.atLine 1 (env9 n)) s = GenRes.fuelOut)
  ∧ (∀ n s, alLookup s (st9 2 n) = none → alLookup s (st9 3 (n + 1)) = none →
      inv9 (n + 1) s →
      genGo p9 li9 fuel (.atLine 2 (env9 n)) s = GenRes.fuelOut)
  ∧ (∀ n s, alLookup s (st9 3 (n + 1)) = none → inv9 (n + 1) s →
      genGo p9 li9 fuel (.atLine 3 (env9 (n + 1))) s = GenRes.fuelOut) := by
  intro fuel
  induction fuel with
  | zero => exact ⟨fun n s _ => rfl, fun n s _ _ _ => rfl, fun n s _ _ => rfl⟩
  | succ fuel ih =>
    refine ⟨?_, ?_, ?_⟩
    · intro n s hinv
      have h1 : alLookup s (st9 1 n) = none := (hinv n le_rfl).1
      rw [gen9_step1 fuel n s h1]
      refine ih.2.1 n _ ?_ ?_ ?_
      · rw [alLookup_update_ne _ _ _ _ (st9_ne (Or.inl (by omega)))]
        exact (hinv n le_rfl).2.1
      · rw [alLookup_update_ne _ _ _ _ (st9_ne (Or.inl (by omega)))]
        exact (hinv n le_rfl).2.2
      · intro m hm
        refine ⟨?_, ?_, ?_⟩
        · rw [alLookup_update_ne _ _ _ _ (st9_ne (Or.inr (by omega)))]
          exact (hinv m (by omega)).1
        · rw [alLookup_update_ne _ _ _ _ (st9_ne (Or.inl (by omega)))]
          exact (hinv m (by omega)).2.1
        · rw [alLookup_update_ne _ _ _ _ (st9_ne (Or.inl (by omega)))]
          exact (hinv m (by omega)).2.2
    · intro n s h2 h3 hinv
      rw [gen9_step2 fuel n s h2]
      refine ih.2.2 n _ ?_ ?_
      · rw [alLookup_update_ne _ _ _ _ (st9_ne (Or.inl (by omega)))]
        exact h3
      · intro m hm
        refine ⟨?_, ?_, ?_⟩
        · rw [alLookup_update_ne _ _ _ _ (st9_ne (Or.inl (by omega)))]
          exact (hinv m hm).1
        · rw [alLookup_update_ne _ _ _ _ (st9_ne (Or.inr (by omega)))]
          exact (hinv m hm).2.1
        · rw [alLookup_update_ne _ _ _ _ (st9_ne (Or.inl (by omega)))]
          exact (hinv m hm).2.2
    · intro n s h3 hinv
      rw [gen9_step3 fuel n s h3]
      refine ih.1 (n + 1) _ ?_
      intro m hm
      refine ⟨?_, ?_, ?_⟩
      · rw [alLookup_update_ne _ _ _ _ (st9_ne (Or.inl (by omega)))]
        exact (hinv m hm).1
      · rw [alLookup_update_ne _ _ _ _ (st9_ne (Or.inl (by omega)))]
        exact (hinv m hm).2.1
      · rw [alLookup_update_ne _ _ _ _ (st9_ne (Or.inr (by omega)))]
        exact (hinv m hm).2.2

theorem gen9_fuelOut : ∀ fuel : Nat, generateStates p9 fuel = GenRes.fuelOut := by
  intro fuel
  cases fuel with
  | zero => rfl
  | succ fuel =>
    have hstep : generateStates p9 (fuel + 1)
        = genGo p9 li9 fuel (.atLine 1 (env9 0))
            [(⟨.num 0, some []⟩, (.vnone, .eps (st9 1 0)))] := rfl
    rw [hstep]
    refine (gen9_spin fuel).1 0 _ ?_
    intro m hm
    refine ⟨?_, ?_, ?_⟩ <;>
      · rw [alLookup_cons,
          if_neg (by simp [st9, env9]), alLookup_nil]

/-- C9 counterexample: the claim states the generator terminates on every program.
It does not: on `p9` (`a = 0; L: a = a + 1; goto L`) the environment value grows
on every pass, no `(pc, environment)` pair ever recurs, and `generate_states`
exhausts every fuel bound (i.e. the Python recursion runs forever). -/
theorem c9_generator_diverges : ¬ genTerminates p9 := by
  rintro ⟨fuel, h⟩
  exact h (gen9_fuelOut fuel)

/-- C9 (amended): the generator does stop recursing as soon as it reaches a
`(pc, environment)` pair already materialised as a state, returning the state map
unchanged (cycle closure); but termination holds only when the reachable
`(pc, environment)` space is finite — assignments can grow environment values
beyond the input domain, so the generator need not terminate on every program
(see the counterexample). -/
theorem c9_cycle_closure (prog : List Instr) (li : List (String × Nat))
    (fuel pc : Nat) (vars : List (String × Value)) (states : FStates)
    (hpc : pc < prog.length)
    (hmem : (alLookup states (⟨.num pc, some vars⟩ : FState)).isSome = true) :
    genGo prog li (fuel + 1) (.atLine pc vars) states = GenRes.okSt states := by
  unfold genGo
  rw [if_neg (by omega), if_pos hmem]

/-- C9 witness: a pair already in the state map is returned unchanged. -/
theorem c9_cycle_closure_witness :
    genGo [Instr.label "L"] [] 1 (GenCall.atLine 0 [])
        [(⟨FName.num 0, some []⟩, (Value.vnone, FTrans.halt))]
      = GenRes.okSt [(⟨FName.num 0, some []⟩, (Value.vnone, FTrans.halt))] :=
  c9_cycle_closure [Instr.label "L"] [] 0 0 []
    [(⟨FName.num 0, some []⟩, (Value.vnone, FTrans.halt))]
    (by decide) (by decide)

/-- C8: the claim states every referenced destination of a compiled automaton
resolves, and in particular nothing references `(pc 0, empty environment)` after
the rename.  Compiling `L: goto L` leaves the state at pc 1 pointing at
`(0, {})`, which the rename popped: the reference is dangling. -/
theorem c8_rename_leaves_dangling_reference :
    compileF p8 10 = GenRes.okSt c8m
  ∧ (⟨.num 0, some []⟩ : FState) ∈ referencedDests c8m
  ∧ (⟨.num 0, some []⟩ : FState) ∉ c8m.map Prod.fst := by
  refine ⟨by decide, by decide, by decide⟩

end Finity
